import Mathlib

/-!
Verification development for the ppu-paddle-ocr repository.

The numeric code of the repository (TypeScript, JS `number` arithmetic on
values that are exact in all the scenarios considered here) is shallowly
embedded over `ℚ`.  JS `Math.round` is `⌊x + 1/2⌋` (round half toward +∞),
`Math.max`/`Math.min` are `max`/`min`, and JS `undefined`/`NaN` propagation
in the confidence computation is modelled by the `JsVal` type.

Sources embedded:
  - src/src/processor/detection.service.ts   (DetectionService)
  - src/src/processor/recognition.service.ts (RecognitionService)
  - src/src/processor/paddle-ocr.service.ts  (PaddleOcrService)
-/

namespace PpuPaddleOcr

/-! ## Data model -/

/-- `Box` from src/src/interface.ts: a plain rectangle `{x, y, width, height}`.
The same shape is used for the anonymous contour/padded rect objects of
detection.service.ts. -/
structure Box where
  x : ℚ
  y : ℚ
  width : ℚ
  height : ℚ
deriving DecidableEq, Repr

/-- `RecognitionResult` (recognition.service.ts:9-12): `{text, box}`.
Note: the interface declares NO `confidence` field. -/
structure RecognitionResult where
  text : String
  box : Box
deriving DecidableEq, Repr

/-- A JS numeric value as it occurs in the confidence computation of
`processRecognition`: an actual number, `NaN`, or `undefined` (the value of a
property access on an object that lacks the property). -/
inductive JsVal where
  | num (q : ℚ)
  | nan
  | undef
deriving DecidableEq, Repr

/-- JS `+` on such values: number + number adds; any operand that is
`undefined` or `NaN` makes the result `NaN`. -/
def jsAdd : JsVal → JsVal → JsVal
  | .num a, .num b => .num (a + b)
  | _, _ => .nan

/-- JS `/` on such values, for the non-zero denominators used here; any
non-number operand gives `NaN`. -/
def jsDiv : JsVal → JsVal → JsVal
  | .num a, .num b => if b = 0 then .nan else .num (a / b)
  | _, _ => .nan

/-- Is the value a number lying in the closed unit interval? -/
def isUnitIntervalNum : JsVal → Bool
  | .num q => decide (0 ≤ q ∧ q ≤ 1)
  | _ => false

/-- The property access `r.confidence` in `processRecognition`
(paddle-ocr.service.ts:310-313): `RecognitionResult` declares no `confidence`
field and `RecognitionService` never sets one, so the access evaluates to
`undefined`. -/
def readConfidence (r : RecognitionResult) : JsVal := JsVal.undef

/-- `PaddleOcrResult` (paddle-ocr.service.ts:16-20), the grouped view. -/
structure PaddleOcrResult where
  text : String
  lines : List (List RecognitionResult)
  confidence : JsVal
deriving DecidableEq, Repr

/-- `FlattenedPaddleOcrResult` (paddle-ocr.service.ts:22-26). -/
structure FlattenedPaddleOcrResult where
  text : String
  results : List RecognitionResult
  confidence : JsVal
deriving DecidableEq, Repr

/-- JS `Math.round`: round half toward positive infinity, `⌊x + 1/2⌋`. -/
def jsRound (q : ℚ) : ℤ := ⌊q + 1/2⌋

/-! ## Detection geometry (detection.service.ts) -/

/-- `applyPaddingToRect` (detection.service.ts:809-839): pad a contour rect by
`round(height * paddingVertical)` vertically and `round(height *
paddingHorizontal)` horizontally, clamp the left/top edges at 0 and the
right/bottom edges at `maxWidth`/`maxHeight`, and derive width/height from the
clamped edges.  (The source's intermediate `width`/`height` assignments before
the edge computation are dead stores and are not modelled.) -/
def applyPaddingToRect (rect : Box) (maxWidth maxHeight paddingVertical paddingHorizontal : ℚ) :
    Box :=
  let verticalPadding : ℚ := (jsRound (rect.height * paddingVertical) : ℚ)
  let horizontalPadding : ℚ := (jsRound (rect.height * paddingHorizontal) : ℚ)
  let x := max 0 (rect.x - horizontalPadding)
  let y := max 0 (rect.y - verticalPadding)
  let rightEdge := min maxWidth (rect.x + rect.width + horizontalPadding)
  let bottomEdge := min maxHeight (rect.y + rect.height + verticalPadding)
  ⟨x, y, rightEdge - x, bottomEdge - y⟩

/-- `convertToOriginalCoordinates` (detection.service.ts:844-861): divide the
rect through by the resize factor, `Math.round` every field, clamp `x`/`y` at 0
and clamp `width`/`height` so the box ends inside the original image. -/
def convertToOriginalCoordinates (rect : Box) (resizeFactor originalWidth originalHeight : ℚ) :
    Box :=
  let scaledX := rect.x / resizeFactor
  let scaledY := rect.y / resizeFactor
  let scaledWidth := rect.width / resizeFactor
  let scaledHeight := rect.height / resizeFactor
  let x : ℚ := max 0 (jsRound scaledX : ℚ)
  let y : ℚ := max 0 (jsRound scaledY : ℚ)
  let width : ℚ := min (originalWidth - x) (jsRound scaledWidth : ℚ)
  let height : ℚ := min (originalHeight - y) (jsRound scaledHeight : ℚ)
  ⟨x, y, width, height⟩

/-! ## Detection pipeline control flow (detection.service.ts) -/

/-- `PreprocessDetectionResult` (detection.service.ts:19-26), geometry fields.
The tensor itself is only handed to the external inference engine and is not
needed by the geometric postprocessing, so it is not carried here. -/
structure PreprocessDetectionResult where
  width : ℚ
  height : ℚ
  resizeFactor : ℚ
  originalWidth : ℚ
  originalHeight : ℚ
deriving DecidableEq, Repr

/-- Behaviour of one call into the external detection inference engine plus the
external contour extraction over the resulting probability map (both are
black-box collaborators): the engine can throw, return a result set without the
expected output tensor, or produce a probability map whose contour extraction
yields a list of bounding rects. -/
inductive InferenceOutcome where
  | throws (msg : String)
  | missingOutput
  | output (contourRects : List Box)
deriving DecidableEq, Repr

/-- `runInference` (detection.service.ts:648-685): a thrown engine error is
rethrown (`throw error` in the catch block → `Except.error`); a missing output
tensor is logged and returned as `null` (`Except.ok none`). -/
def runInference : InferenceOutcome → Except String (Option (List Box))
  | .throws msg => .error msg
  | .missingOutput => .ok none
  | .output contourRects => .ok (some contourRects)

/-- `extractBoxesFromContours` (detection.service.ts:763-804): drop contours
whose bounding rect area is ≤ `minBoxArea`, pad the survivors, convert them to
original coordinates, and keep only boxes with width > 5 and height > 5,
in contour iteration order. -/
def extractBoxesFromContours (rects : List Box)
    (width height resizeFactor originalWidth originalHeight : ℚ)
    (minBoxArea paddingVertical paddingHorizontal : ℚ) : List Box :=
  rects.foldl
    (fun boxes rect =>
      if rect.width * rect.height ≤ minBoxArea then boxes
      else
        let paddedRect := applyPaddingToRect rect width height paddingVertical paddingHorizontal
        let finalBox :=
          convertToOriginalCoordinates paddedRect resizeFactor originalWidth originalHeight
        if 5 < finalBox.width ∧ 5 < finalBox.height then boxes ++ [finalBox] else boxes)
    []

/-- `postprocessDetection` (detection.service.ts:721-758): the probability map
is converted to grayscale and contour-extracted (external collaborators, the
resulting rects are the `InferenceOutcome.output` payload here), then boxes are
extracted; no sorting happens in the detection service. -/
def postprocessDetection (rects : List Box) (input : PreprocessDetectionResult)
    (minBoxArea paddingVertical paddingHorizontal : ℚ) : List Box :=
  extractBoxesFromContours rects input.width input.height input.resizeFactor
    input.originalWidth input.originalHeight minBoxArea paddingVertical paddingHorizontal

/-- Body of `DetectionService.run` (detection.service.ts:69-136) inside the
`try`: preprocessing and inference; a `null` detection yields `[]`, otherwise
the boxes are post-processed. An inference error escapes the body. -/
def detectionRunBody (outcome : InferenceOutcome) (input : PreprocessDetectionResult)
    (minBoxArea paddingVertical paddingHorizontal : ℚ) : Except String (List Box) :=
  match runInference outcome with
  | .error e => .error e
  | .ok none => .ok []
  | .ok (some rects) =>
      .ok (postprocessDetection rects input minBoxArea paddingVertical paddingHorizontal)

/-- `DetectionService.run` (detection.service.ts:69-136): the whole body is
wrapped in `try { ... } catch (error) { console.error(...); return []; }` —
every error, including a thrown inference error, is caught, logged and turned
into an empty box list. -/
def detectionRun (outcome : InferenceOutcome) (input : PreprocessDetectionResult)
    (minBoxArea paddingVertical paddingHorizontal : ℚ) : Except String (List Box) :=
  match detectionRunBody outcome input minBoxArea paddingVertical paddingHorizontal with
  | .error _ => .ok []
  | .ok boxes => .ok boxes

/-! ## Reading-order sort (recognition.service.ts:153-166) -/

/-- The reading-order comparator of `sortResultsByReadingOrder`: boxes whose
vertical distance is below a quarter of their combined heights are "on the same
line" and compare by x, otherwise they compare by y. Negative means `boxA`
comes first. -/
def readingOrderCmp (boxA boxB : Box) : ℚ :=
  if |boxA.y - boxB.y| < (boxA.height + boxB.height) / 4 then boxA.x - boxB.x
  else boxA.y - boxB.y

/-- A list of boxes is sorted in reading order when every adjacent pair is
ordered by the comparator. -/
def sortedByReadingOrder (boxes : List Box) : Prop :=
  List.Chain' (fun a b => readingOrderCmp a b ≤ 0) boxes

/-- The comparator as a relation on recognition results. -/
def resultOrderLE (a b : RecognitionResult) : Prop :=
  readingOrderCmp a.box b.box ≤ 0

instance : DecidableRel resultOrderLE := fun a b =>
  inferInstanceAs (Decidable (readingOrderCmp a.box b.box ≤ 0))

/-- `sortResultsByReadingOrder` (recognition.service.ts:153-166): sort the
recognition results with the reading-order comparator.  JS `Array.prototype.sort`
is modelled by insertion sort with the comparator's non-strict order. -/
def sortResultsByReadingOrder (results : List RecognitionResult) : List RecognitionResult :=
  List.insertionSort resultOrderLE results

/-! ## Skew consensus (detection.service.ts:458-521) -/

/-- One weighted angle measurement with the method tag attached in
`calculateSkewAngle` (detection.service.ts:227-232). -/
structure AngleMeasurement where
  angle : ℚ
  weight : ℚ
  method : String
deriving DecidableEq, Repr

/-- `[...angles].sort((a, b) => a.angle - b.angle)`
(detection.service.ts:466): ascending by angle. -/
def sortMeasurementsByAngle (angles : List AngleMeasurement) : List AngleMeasurement :=
  List.insertionSort (fun a b => a.angle ≤ b.angle) angles

/-- `Math.floor(sortedAngles.length * 0.25)` — equals `length / 4` in ℕ floor
division. -/
def consensusQ1Index (angles : List AngleMeasurement) : ℕ :=
  (sortMeasurementsByAngle angles).length / 4

/-- `Math.floor(sortedAngles.length * 0.75)` — equals `3 * length / 4` in ℕ
floor division. -/
def consensusQ3Index (angles : List AngleMeasurement) : ℕ :=
  3 * (sortMeasurementsByAngle angles).length / 4

/-- `sortedAngles[q1Index]?.angle || 0` (detection.service.ts:469): the indexed
angle, or 0 when absent (an angle of exactly 0 is falsy and also yields 0, the
same value). -/
def consensusQ1 (angles : List AngleMeasurement) : ℚ :=
  (((sortMeasurementsByAngle angles).get? (consensusQ1Index angles)).map
    AngleMeasurement.angle).getD 0

/-- `sortedAngles[q3Index]?.angle || 0` (detection.service.ts:470). -/
def consensusQ3 (angles : List AngleMeasurement) : ℚ :=
  (((sortMeasurementsByAngle angles).get? (consensusQ3Index angles)).map
    AngleMeasurement.angle).getD 0

/-- `q1 - 1.5 * iqr` where `iqr = q3 - q1` (detection.service.ts:471-472). -/
def consensusLowerBound (angles : List AngleMeasurement) : ℚ :=
  consensusQ1 angles - 3/2 * (consensusQ3 angles - consensusQ1 angles)

/-- `q3 + 1.5 * iqr` (detection.service.ts:473). -/
def consensusUpperBound (angles : List AngleMeasurement) : ℚ :=
  consensusQ3 angles + 3/2 * (consensusQ3 angles - consensusQ1 angles)

/-- The IQR-and-range filter (detection.service.ts:475-481). -/
def consensusFiltered (angles : List AngleMeasurement) (minAngle maxAngle : ℚ) :
    List AngleMeasurement :=
  angles.filter fun a =>
    decide (consensusLowerBound angles ≤ a.angle ∧ a.angle ≤ consensusUpperBound angles ∧
      minAngle ≤ a.angle ∧ a.angle ≤ maxAngle)

/-- `sortedAngles[Math.floor(sortedAngles.length / 2)]?.angle || 0`
(detection.service.ts:487-488): the median of the unfiltered (sorted) set. -/
def consensusMedian (angles : List AngleMeasurement) : ℚ :=
  (((sortMeasurementsByAngle angles).get? ((sortMeasurementsByAngle angles).length / 2)).map
    AngleMeasurement.angle).getD 0

/-- `calculateConsensusAngle` (detection.service.ts:458-521).  The `reduce`
accumulations over `+` are written as sums over the corresponding mapped
lists. -/
def calculateConsensusAngle (angles : List AngleMeasurement) (minAngle maxAngle : ℚ) : ℚ :=
  if angles = [] then 0
  else
    let filteredAngles := consensusFiltered angles minAngle maxAngle
    if filteredAngles = [] then consensusMedian angles
    else
      let totalWeight := (filteredAngles.map AngleMeasurement.weight).sum
      if totalWeight = 0 then
        (filteredAngles.map AngleMeasurement.angle).sum / (filteredAngles.length : ℚ)
      else
        let weightedSum := (filteredAngles.map (fun a => a.angle * a.weight)).sum
        max minAngle (min maxAngle (weightedSum / totalWeight))

/-! ## CTC greedy decoding (recognition.service.ts:374-464) -/

/-- `RecognitionService.UNK_TOKEN` (recognition.service.ts:24). -/
def UNK_TOKEN : String := "<unk>"

/-- `findMaxProbabilityClass` (recognition.service.ts:440-457): scan the
timestep's row for the strictly largest logit, keeping the first maximum.
`maxProb` starts at `-Infinity`, modelled as `none`; a read past the end of the
logits array yields `undefined`, whose `>` comparison is false, so the
accumulator is kept. Returns (max value, argmax index). -/
def findMaxProbabilityClass (logits : List ℚ) (timestep numClasses : ℕ) : Option ℚ × ℕ :=
  (List.range numClasses).foldl
    (fun acc c =>
      match logits.get? (timestep * numClasses + c) with
      | none => acc
      | some prob =>
        match acc.1 with
        | none => (some prob, c)
        | some maxProb => if maxProb < prob then (some prob, c) else acc)
    (none, 0)

/-- `isValidDictionaryIndex` (recognition.service.ts:462-464); the argmax index
is a ℕ here so `index >= 0` is automatic. -/
def isValidDictionaryIndex (index : ℕ) (charDict : List String) : Bool :=
  decide (index < charDict.length)

/-- `appendCharacterToText` (recognition.service.ts:417-435), returning the
string passed to the append callback (`""` when nothing is appended): the
dictionary's last slot emits a space, unless it holds the literal `"<unk>"`
marker, which emits nothing; any other slot emits its entry verbatim. -/
def appendCharacterToText (index : ℕ) (charDict : List String) : String :=
  let char := charDict.getD index ""
  if index = charDict.length - 1 then
    if char = UNK_TOKEN then "" else " "
  else char

/-- The loop body state of `ctcGreedyDecode` (recognition.service.ts:374-412):
iterate `remaining` timesteps starting at `t`, carrying `lastCharIndex`
(initially -1) and the accumulated decoded text. A blank (index 0) or a repeat
of `lastCharIndex` emits nothing; an out-of-bounds argmax logs a warning and
emits nothing; in every case `lastCharIndex` becomes the current argmax. -/
def ctcGreedyDecodeGo (logits : List ℚ) (numClasses : ℕ) (charDict : List String) :
    ℕ → ℕ → ℤ → String → String
  | 0, _, _, decodedText => decodedText
  | remaining + 1, t, lastCharIndex, decodedText =>
    let predictedClassIndex := (findMaxProbabilityClass logits t numClasses).2
    if predictedClassIndex = 0 ∨ (predictedClassIndex : ℤ) = lastCharIndex then
      ctcGreedyDecodeGo logits numClasses charDict remaining (t + 1)
        (predictedClassIndex : ℤ) decodedText
    else if isValidDictionaryIndex predictedClassIndex charDict then
      ctcGreedyDecodeGo logits numClasses charDict remaining (t + 1)
        (predictedClassIndex : ℤ)
        (decodedText ++ appendCharacterToText predictedClassIndex charDict)
    else
      ctcGreedyDecodeGo logits numClasses charDict remaining (t + 1)
        (predictedClassIndex : ℤ) decodedText

/-- `ctcGreedyDecode` (recognition.service.ts:374-412). -/
def ctcGreedyDecode (logits : List ℚ) (sequenceLength numClasses : ℕ)
    (charDict : List String) : String :=
  ctcGreedyDecodeGo logits numClasses charDict sequenceLength 0 (-1) ""

/-- The string emitted at a single timestep whose argmax is `index`, given the
previous `lastCharIndex`: nothing for a blank, a repeat, or an out-of-bounds
index; otherwise the `appendCharacterToText` emission. -/
def ctcEmission (charDict : List String) (lastCharIndex : ℤ) (index : ℕ) : String :=
  if index = 0 ∨ (index : ℤ) = lastCharIndex then ""
  else if isValidDictionaryIndex index charDict then appendCharacterToText index charDict
  else ""

/-- The per-timestep emissions of the decode loop, one string per timestep. -/
def ctcEmissionList (logits : List ℚ) (numClasses : ℕ) (charDict : List String) :
    ℕ → ℕ → ℤ → List String
  | 0, _, _ => []
  | remaining + 1, t, lastCharIndex =>
    let predictedClassIndex := (findMaxProbabilityClass logits t numClasses).2
    ctcEmission charDict lastCharIndex predictedClassIndex ::
      ctcEmissionList logits numClasses charDict remaining (t + 1) (predictedClassIndex : ℤ)

/-- Concatenation of a list of strings (no separator). -/
def concatAll : List String → String
  | [] => ""
  | s :: rest => s ++ concatAll rest

/-! ## Line grouping (paddle-ocr.service.ts:296-350) -/

/-- The grouping loop of `processRecognition` (paddle-ocr.service.ts:316-346):
`previous` is the previous recognition item, `currentLine` the line being
built, `lines` the closed lines, `fullText` the incrementally built text and
`avgHeight` the mean box height of `currentLine`. An item whose vertical gap to
the previous item is within `avgHeight * 0.5` joins the current line (text
joined by a space, running average updated); otherwise the line is closed and a
new one starts (text joined by a newline). At the end the current line is
pushed if non-empty. Returns (lines, fullText). -/
def groupLoop :
    RecognitionResult → List RecognitionResult → List (List RecognitionResult) → String → ℚ →
      List RecognitionResult → List (List RecognitionResult) × String
  | _, currentLine, lines, fullText, _, [] =>
      (if currentLine = [] then lines else lines ++ [currentLine], fullText)
  | previous, currentLine, lines, fullText, avgHeight, current :: rest =>
      if |current.box.y - previous.box.y| ≤ avgHeight * (1/2) then
        let currentLine' := currentLine ++ [current]
        groupLoop current currentLine' lines (fullText ++ " " ++ current.text)
          ((currentLine'.map (fun r => r.box.height)).sum / (currentLine'.length : ℚ)) rest
      else
        groupLoop current [current] (lines ++ [currentLine]) (fullText ++ "\n" ++ current.text)
          current.box.height rest

/-- `processRecognition` (paddle-ocr.service.ts:296-350): empty input returns
the empty result with confidence 0; otherwise the overall confidence is the
`reduce`-accumulated sum of the per-item `r.confidence` accesses divided by the
item count, and the lines/text come from the grouping loop seeded with the
first item. -/
def processRecognition (recognition : List RecognitionResult) : PaddleOcrResult :=
  match recognition with
  | [] => ⟨"", [], .num 0⟩
  | first :: rest =>
      let totalConfidence :=
        (first :: rest).foldl (fun sum r => jsAdd sum (readConfidence r)) (.num 0)
      let confidence := jsDiv totalConfidence (.num ((first :: rest).length : ℚ))
      let grouped := groupLoop first [first] [] first.text first.box.height rest
      ⟨grouped.2, grouped.1, confidence⟩

/-- The grouped view returned by `recognize` (paddle-ocr.service.ts:259-290)
when `flatten` is false or omitted. -/
def recognizeGrouped (recognition : List RecognitionResult) : PaddleOcrResult :=
  processRecognition recognition

/-- The flattened view returned by `recognize` (paddle-ocr.service.ts:281-287)
when `flatten` is true: the processed text and confidence together with the raw
recognition list. -/
def recognizeFlattened (recognition : List RecognitionResult) : FlattenedPaddleOcrResult :=
  let processed := processRecognition recognition
  ⟨processed.text, recognition, processed.confidence⟩

/-- Join a list of strings with a separator (JS `Array.prototype.flatten`). -/
def joinSep (sep : String) : List String → String
  | [] => ""
  | [s] => s
  | s :: rest => s ++ sep ++ joinSep sep rest

/-- The text of one line: item texts joined by a single space. -/
def renderLine (line : List RecognitionResult) : String :=
  joinSep " " (line.map (fun r => r.text))

/-- The text of a grouped result: line texts joined by newlines. -/
def renderLines (lines : List (List RecognitionResult)) : String :=
  joinSep "\n" (lines.map renderLine)

/-! ## Helper lemmas -/

/-- Evaluate `jsRound` at a concrete input via floor bounds. -/
theorem jsRound_eq_of (q : ℚ) (n : ℤ) (h1 : (n : ℚ) ≤ q + 1/2)
    (h2 : q + 1/2 < (n : ℚ) + 1) : jsRound q = n := by
  unfold jsRound
  rw [Int.floor_eq_iff]
  exact ⟨h1, by exact_mod_cast h2⟩

/-! ## C7 — coordinate conversion stays in bounds -/

/-- C7: for every input rectangle and every resizeRatio > 0, the Box returned
by the padded-to-original coordinate conversion satisfies `0 ≤ x`, `0 ≤ y`,
`x + width ≤ originalWidth` and `y + height ≤ originalHeight`. -/
theorem convertToOriginalCoordinates_within_bounds (rect : Box)
    (resizeFactor originalWidth originalHeight : ℚ) (hr : 0 < resizeFactor) :
    0 ≤ (convertToOriginalCoordinates rect resizeFactor originalWidth originalHeight).x ∧
    0 ≤ (convertToOriginalCoordinates rect resizeFactor originalWidth originalHeight).y ∧
    (convertToOriginalCoordinates rect resizeFactor originalWidth originalHeight).x +
        (convertToOriginalCoordinates rect resizeFactor originalWidth originalHeight).width ≤
      originalWidth ∧
    (convertToOriginalCoordinates rect resizeFactor originalWidth originalHeight).y +
        (convertToOriginalCoordinates rect resizeFactor originalWidth originalHeight).height ≤
      originalHeight := by
  unfold convertToOriginalCoordinates
  refine ⟨le_max_left 0 _, le_max_left 0 _, ?_, ?_⟩
  · have h := min_le_left
      (originalWidth - max 0 ((jsRound (rect.x / resizeFactor) : ℤ) : ℚ))
      ((jsRound (rect.width / resizeFactor) : ℤ) : ℚ)
    simp only
    linarith
  · have h := min_le_left
      (originalHeight - max 0 ((jsRound (rect.y / resizeFactor) : ℤ) : ℚ))
      ((jsRound (rect.height / resizeFactor) : ℤ) : ℚ)
    simp only
    linarith

/-- Witness for C7 at a concrete input. -/
theorem convertToOriginalCoordinates_within_bounds_witness :
    (0 : ℚ) < 1 ∧
    (0 ≤ (convertToOriginalCoordinates ⟨3, 4, 10, 12⟩ 1 100 200).x ∧
     0 ≤ (convertToOriginalCoordinates ⟨3, 4, 10, 12⟩ 1 100 200).y ∧
     (convertToOriginalCoordinates ⟨3, 4, 10, 12⟩ 1 100 200).x +
         (convertToOriginalCoordinates ⟨3, 4, 10, 12⟩ 1 100 200).width ≤ 100 ∧
     (convertToOriginalCoordinates ⟨3, 4, 10, 12⟩ 1 100 200).y +
         (convertToOriginalCoordinates ⟨3, 4, 10, 12⟩ 1 100 200).height ≤ 200) :=
  ⟨by norm_num, convertToOriginalCoordinates_within_bounds ⟨3, 4, 10, 12⟩ 1 100 200 (by norm_num)⟩

/-! ## C2 — inference error routing (corrected) -/

/-- C2 counterexample: a thrown inference error does NOT propagate out of the
detection run — `run`'s catch block swallows it and returns an empty box list,
so the caller sees a successful empty result instead of a failure. -/
theorem detectionRun_swallows_inference_error :
    detectionRun (.throws "bad tensor shape") ⟨320, 320, 1, 320, 320⟩ 20 (2/5) (3/5) =
      .ok [] ∧
    detectionRun (.throws "bad tensor shape") ⟨320, 320, 1, 320, 320⟩ 20 (2/5) (3/5) ≠
      .error "bad tensor shape" :=
  ⟨rfl, by simp [detectionRun, detectionRunBody, runInference]⟩

/-- C2 amended: a thrown engine error is rethrown by `runInference` but caught
inside `run`, which returns an empty box list; a missing output tensor likewise
yields an empty box list; a usable output is post-processed. The detection run
never surfaces an error to its caller. -/
theorem detectionRun_error_routing (msg : String) (input : PreprocessDetectionResult)
    (minBoxArea paddingVertical paddingHorizontal : ℚ) :
    runInference (.throws msg) = .error msg ∧
    detectionRun (.throws msg) input minBoxArea paddingVertical paddingHorizontal = .ok [] ∧
    detectionRun .missingOutput input minBoxArea paddingVertical paddingHorizontal = .ok [] ∧
    (∀ rects, detectionRun (.output rects) input minBoxArea paddingVertical paddingHorizontal =
      .ok (postprocessDetection rects input minBoxArea paddingVertical paddingHorizontal)) :=
  ⟨rfl, rfl, rfl, fun _ => rfl⟩

/-! ## C1 — overall confidence (code bug) -/

/-- C1: `processRecognition` computes the overall confidence as the mean of the
per-item `r.confidence` accesses, but `RecognitionResult` declares no
`confidence` field, so each access is `undefined` and the mean is `NaN` for any
non-empty input — not a number in [0,1] as the spec requires. Shown at a
concrete one-element input. -/
theorem processRecognition_confidence_is_nan :
    (processRecognition [⟨"hello", ⟨0, 0, 10, 10⟩⟩]).confidence = JsVal.nan ∧
    isUnitIntervalNum (processRecognition [⟨"hello", ⟨0, 0, 10, 10⟩⟩]).confidence = false ∧
    (processRecognition []).confidence = JsVal.num 0 :=
  ⟨rfl, rfl, rfl⟩

/-! ## C3 — detection output is not sorted (corrected) -/

/-- C3 counterexample: the detection run performs no sort — with the contour
extractor yielding a lower box before an upper box, `run` returns them in
contour order, which violates the reading-order comparator for the adjacent
pair (the boxes are on different lines and the first has the larger y). -/
theorem detectionRun_output_not_sorted :
    detectionRun (.output [⟨0, 200, 50, 10⟩, ⟨0, 0, 50, 10⟩]) ⟨320, 320, 1, 320, 320⟩
        20 (2/5) (3/5) =
      .ok [⟨0, 196, 56, 18⟩, ⟨0, 0, 56, 14⟩] ∧
    ¬ sortedByReadingOrder [⟨0, 196, 56, 18⟩, ⟨0, 0, 56, 14⟩] := by
  constructor
  · have j0 : jsRound (0 : ℚ) = 0 := jsRound_eq_of _ _ (by norm_num) (by norm_num)
    have j4 : jsRound (4 : ℚ) = 4 := jsRound_eq_of _ _ (by norm_num) (by norm_num)
    have j6 : jsRound (6 : ℚ) = 6 := jsRound_eq_of _ _ (by norm_num) (by norm_num)
    have j14 : jsRound (14 : ℚ) = 14 := jsRound_eq_of _ _ (by norm_num) (by norm_num)
    have j18 : jsRound (18 : ℚ) = 18 := jsRound_eq_of _ _ (by norm_num) (by norm_num)
    have j56 : jsRound (56 : ℚ) = 56 := jsRound_eq_of _ _ (by norm_num) (by norm_num)
    have j196 : jsRound (196 : ℚ) = 196 := jsRound_eq_of _ _ (by norm_num) (by norm_num)
    norm_num [detectionRun, detectionRunBody, runInference, postprocessDetection,
      extractBoxesFromContours, applyPaddingToRect, convertToOriginalCoordinates,
      max_def, min_def, j0, j4, j6, j14, j18, j56, j196]
  · intro h
    have hpair := (List.chain'_cons.mp h).1
    have habs : |(196 : ℚ) - 0| = 196 := by
      rw [abs_of_nonneg] <;> norm_num
    rw [readingOrderCmp] at hpair
    rw [habs] at hpair
    norm_num at hpair

/-- Swapping the comparator's arguments negates it: the same-line test is
symmetric, and both branches are differences. -/
theorem readingOrderCmp_swap (a b : Box) : readingOrderCmp b a = - readingOrderCmp a b := by
  unfold readingOrderCmp
  rw [abs_sub_comm, show b.height + a.height = a.height + b.height from add_comm _ _]
  split_ifs with h
  · ring
  · ring

/-- The comparator's non-strict order is total. -/
theorem resultOrderLE_total (a b : RecognitionResult) :
    resultOrderLE a b ∨ resultOrderLE b a := by
  unfold resultOrderLE
  rcases le_total (readingOrderCmp a.box b.box) 0 with h | h
  · exact Or.inl h
  · right
    rw [readingOrderCmp_swap]
    linarith

/-- Inserting into a list with comparator-ordered adjacent pairs preserves that
property (totality stands in for the transitivity the comparator lacks). -/
theorem chain'_orderedInsert (x : RecognitionResult) :
    ∀ l : List RecognitionResult, List.Chain' resultOrderLE l →
      List.Chain' resultOrderLE (l.orderedInsert resultOrderLE x)
  | [], _ => by simp [List.orderedInsert]
  | y :: ys, h => by
      by_cases hxy : resultOrderLE x y
      · rw [List.orderedInsert, if_pos hxy]
        exact List.Chain'.cons hxy h
      · rw [List.orderedInsert, if_neg hxy]
        have hyx : resultOrderLE y x := (resultOrderLE_total x y).resolve_left hxy
        match ys, h with
        | [], _ => simpa [List.orderedInsert, List.chain'_pair] using hyx
        | z :: zs, h =>
          have hyz := (List.chain'_cons.mp h).1
          have ih := chain'_orderedInsert x (z :: zs) (List.chain'_cons.mp h).2
          by_cases hxz : resultOrderLE x z
          · rw [List.orderedInsert, if_pos hxz] at ih ⊢
            exact List.chain'_cons.mpr ⟨hyx, ih⟩
          · rw [List.orderedInsert, if_neg hxz] at ih ⊢
            exact List.chain'_cons.mpr ⟨hyz, ih⟩

/-- Insertion sort with the reading-order comparator orders every adjacent
pair. -/
theorem chain'_insertionSort :
    ∀ l : List RecognitionResult, List.Chain' resultOrderLE (List.insertionSort resultOrderLE l)
  | [] => List.chain'_nil
  | x :: xs => by
      rw [List.insertionSort]
      exact chain'_orderedInsert x _ (chain'_insertionSort xs)

/-- C3 amended: the reading-order sort is applied by the recognition pipeline
(`sortResultsByReadingOrder`), not by the detection run: it returns a
permutation of the recognition results whose boxes have every adjacent pair
ordered by the comparator. -/
theorem sortResultsByReadingOrder_sorts (results : List RecognitionResult) :
    (sortResultsByReadingOrder results).Perm results ∧
    sortedByReadingOrder ((sortResultsByReadingOrder results).map (fun r => r.box)) := by
  refine ⟨List.perm_insertionSort _ _, ?_⟩
  unfold sortedByReadingOrder sortResultsByReadingOrder
  rw [List.chain'_map]
  exact chain'_insertionSort results

/-! ## C4 — consensus angle (corrected) -/

/-- The mean of a non-empty list of rationals lies between any bounds enclosing
all its elements. -/
theorem mean_mem_range (l : List ℚ) (lo hi : ℚ) (hne : l ≠ [])
    (h : ∀ x ∈ l, lo ≤ x ∧ x ≤ hi) :
    lo ≤ l.sum / (l.length : ℚ) ∧ l.sum / (l.length : ℚ) ≤ hi := by
  have hlen : (0 : ℚ) < (l.length : ℚ) := by
    exact_mod_cast List.length_pos.mpr hne
  have hsum_le : l.sum ≤ l.length • hi := List.sum_le_card_nsmul l hi fun x hx => (h x hx).2
  have hle_sum : l.length • lo ≤ l.sum := List.card_nsmul_le_sum l lo fun x hx => (h x hx).1
  simp only [nsmul_eq_mul] at hsum_le hle_sum
  constructor
  · rw [le_div_iff₀ hlen]
    linarith
  · rw [div_le_iff₀ hlen]
    linarith

/-- Membership in the consensus filter yields the range facts of its
predicate. -/
theorem mem_consensusFiltered (angles : List AngleMeasurement) (minAngle maxAngle : ℚ)
    (a : AngleMeasurement) (ha : a ∈ consensusFiltered angles minAngle maxAngle) :
    consensusLowerBound angles ≤ a.angle ∧ a.angle ≤ consensusUpperBound angles ∧
      minAngle ≤ a.angle ∧ a.angle ≤ maxAngle := by
  have h := (List.mem_filter.mp ha).2
  exact of_decide_eq_true h

/-- C4 counterexample: with the single measurement `{angle: 30, weight: 1}` and
bounds [-20, 20], the IQR window degenerates to {30}, the range filter then
removes the sample, and the median fallback returns the raw median 30 — outside
[-20, 20], unclamped. -/
theorem calculateConsensusAngle_escapes_range :
    calculateConsensusAngle [⟨30, 1, "minRect"⟩] (-20) 20 = 30 ∧
    ¬ calculateConsensusAngle [⟨30, 1, "minRect"⟩] (-20) 20 ≤ 20 := by
  have h : calculateConsensusAngle [⟨30, 1, "minRect"⟩] (-20) 20 = 30 := by
    norm_num [calculateConsensusAngle, consensusFiltered, consensusLowerBound,
      consensusUpperBound, consensusQ1, consensusQ3, consensusQ1Index, consensusQ3Index,
      consensusMedian, sortMeasurementsByAngle, List.insertionSort, List.orderedInsert,
      List.filter, List.get?]
  refine ⟨h, ?_⟩
  rw [h]
  norm_num

/-- C4 amended: on the weighted-mean path the result is the weighted mean
clamped to [minAngle, maxAngle]; on the zero-total-weight path it is the simple
mean of the surviving samples, which all lie in [minAngle, maxAngle], so the
result does too; but when every sample is filtered out the result is the
median of the unfiltered set, returned without clamping (and hence possibly
outside the range, as the counterexample shows). -/
theorem calculateConsensusAngle_paths (angles : List AngleMeasurement) (minAngle maxAngle : ℚ)
    (hne : angles ≠ []) (hminmax : minAngle ≤ maxAngle) :
    (consensusFiltered angles minAngle maxAngle = [] →
      calculateConsensusAngle angles minAngle maxAngle = consensusMedian angles) ∧
    (consensusFiltered angles minAngle maxAngle ≠ [] →
      minAngle ≤ calculateConsensusAngle angles minAngle maxAngle ∧
      calculateConsensusAngle angles minAngle maxAngle ≤ maxAngle) ∧
    (consensusFiltered angles minAngle maxAngle ≠ [] →
      ((consensusFiltered angles minAngle maxAngle).map AngleMeasurement.weight).sum = 0 →
      calculateConsensusAngle angles minAngle maxAngle =
        ((consensusFiltered angles minAngle maxAngle).map AngleMeasurement.angle).sum /
          ((consensusFiltered angles minAngle maxAngle).length : ℚ)) ∧
    (consensusFiltered angles minAngle maxAngle ≠ [] →
      ((consensusFiltered angles minAngle maxAngle).map AngleMeasurement.weight).sum ≠ 0 →
      calculateConsensusAngle angles minAngle maxAngle =
        max minAngle (min maxAngle
          (((consensusFiltered angles minAngle maxAngle).map
              (fun a => a.angle * a.weight)).sum /
            ((consensusFiltered angles minAngle maxAngle).map
              AngleMeasurement.weight).sum))) := by
  unfold calculateConsensusAngle
  rw [if_neg hne]
  refine ⟨fun hf => by rw [if_pos hf], fun hf => ?_, fun hf hw => ?_, fun hf hw => ?_⟩
  · rw [if_neg hf]
    by_cases hw : ((consensusFiltered angles minAngle maxAngle).map
        AngleMeasurement.weight).sum = 0
    · rw [if_pos hw]
      have hmapne : (consensusFiltered angles minAngle maxAngle).map
          AngleMeasurement.angle ≠ [] := by
        simpa [List.map_eq_nil_iff] using hf
      have hbounds : ∀ x ∈ (consensusFiltered angles minAngle maxAngle).map
          AngleMeasurement.angle, minAngle ≤ x ∧ x ≤ maxAngle := by
        intro x hx
        obtain ⟨a, ha, rfl⟩ := List.mem_map.mp hx
        have := mem_consensusFiltered angles minAngle maxAngle a ha
        exact ⟨this.2.2.1, this.2.2.2⟩
      have := mean_mem_range _ minAngle maxAngle hmapne hbounds
      rwa [List.length_map] at this
    · rw [if_neg hw]
      exact ⟨le_max_left _ _, max_le hminmax (min_le_left _ _)⟩
  · rw [if_neg hf, if_pos hw]
  · rw [if_neg hf, if_neg hw]

/-- Witness for C4 amended at a concrete input: with the single in-range sample
`{angle: 5, weight: 1}` nothing is filtered out and the result stays within
[-20, 20]. -/
theorem calculateConsensusAngle_paths_witness :
    ([⟨5, 1, "minRect"⟩] : List AngleMeasurement) ≠ [] ∧ (-20 : ℚ) ≤ 20 ∧
    (-20 ≤ calculateConsensusAngle [⟨5, 1, "minRect"⟩] (-20) 20 ∧
      calculateConsensusAngle [⟨5, 1, "minRect"⟩] (-20) 20 ≤ 20) := by
  refine ⟨by simp, by norm_num, ?_⟩
  refine (calculateConsensusAngle_paths [⟨5, 1, "minRect"⟩] (-20) 20 (by simp)
    (by norm_num)).2.1 ?_
  norm_num [consensusFiltered, consensusLowerBound, consensusUpperBound, consensusQ1,
    consensusQ3, consensusQ1Index, consensusQ3Index, sortMeasurementsByAngle,
    List.insertionSort, List.orderedInsert, List.filter, List.get?]

/-! ## C10 and C5 — CTC decoding -/

/-- The decode loop equals its accumulator followed by the concatenation of the
per-timestep emissions. -/
theorem ctcGreedyDecodeGo_eq_emissions (logits : List ℚ) (numClasses : ℕ)
    (charDict : List String) :
    ∀ (remaining t : ℕ) (lastCharIndex : ℤ) (acc : String),
      ctcGreedyDecodeGo logits numClasses charDict remaining t lastCharIndex acc =
        acc ++ concatAll (ctcEmissionList logits numClasses charDict remaining t lastCharIndex)
  | 0, t, lastCharIndex, acc => by
      simp [ctcGreedyDecodeGo, ctcEmissionList, concatAll, String.append_empty]
  | remaining + 1, t, lastCharIndex, acc => by
      rw [ctcGreedyDecodeGo, ctcEmissionList, concatAll, ctcEmission]
      by_cases hskip :
          (findMaxProbabilityClass logits t numClasses).2 = 0 ∨
            ((findMaxProbabilityClass logits t numClasses).2 : ℤ) = lastCharIndex
      · rw [if_pos hskip, if_pos hskip,
          ctcGreedyDecodeGo_eq_emissions logits numClasses charDict remaining (t + 1) _ acc,
          String.empty_append]
      · rw [if_neg hskip, if_neg hskip]
        by_cases hvalid :
            isValidDictionaryIndex (findMaxProbabilityClass logits t numClasses).2 charDict
        · rw [if_pos hvalid, if_pos hvalid,
            ctcGreedyDecodeGo_eq_emissions logits numClasses charDict remaining (t + 1) _ _,
            String.append_assoc]
        · rw [if_neg hvalid, if_neg hvalid,
            ctcGreedyDecodeGo_eq_emissions logits numClasses charDict remaining (t + 1) _ acc,
            String.empty_append]

/-- The emission list has one entry per timestep. -/
theorem ctcEmissionList_length (logits : List ℚ) (numClasses : ℕ) (charDict : List String) :
    ∀ (remaining t : ℕ) (lastCharIndex : ℤ),
      (ctcEmissionList logits numClasses charDict remaining t lastCharIndex).length = remaining
  | 0, _, _ => rfl
  | remaining + 1, t, lastCharIndex => by
      rw [ctcEmissionList]
      simp [ctcEmissionList_length logits numClasses charDict remaining (t + 1) _]

/-- Every single-timestep emission is empty, a single space, or a dictionary
entry. -/
theorem ctcEmission_cases (charDict : List String) (lastCharIndex : ℤ) (index : ℕ) :
    ctcEmission charDict lastCharIndex index = "" ∨
    ctcEmission charDict lastCharIndex index = " " ∨
    ctcEmission charDict lastCharIndex index ∈ charDict := by
  unfold ctcEmission
  by_cases hskip : index = 0 ∨ (index : ℤ) = lastCharIndex
  · rw [if_pos hskip]
    exact Or.inl rfl
  · rw [if_neg hskip]
    by_cases hvalid : isValidDictionaryIndex index charDict
    · rw [if_pos hvalid]
      unfold appendCharacterToText
      have hlt : index < charDict.length := of_decide_eq_true hvalid
      by_cases hlast : index = charDict.length - 1
      · rw [if_pos hlast]
        by_cases hunk : charDict.getD index "" = UNK_TOKEN
        · rw [if_pos hunk]
          exact Or.inl rfl
        · rw [if_neg hunk]
          exact Or.inr (Or.inl rfl)
      · rw [if_neg hlast]
        right; right
        rw [List.getD_eq_getElem charDict "" hlt]
        exact List.getElem_mem hlt
    · rw [if_neg hvalid]
      exact Or.inl rfl

/-- An argmax index at or beyond the dictionary length emits nothing. -/
theorem ctcEmission_out_of_bounds (charDict : List String) (lastCharIndex : ℤ) (index : ℕ)
    (h : charDict.length ≤ index) : ctcEmission charDict lastCharIndex index = "" := by
  unfold ctcEmission
  by_cases hskip : index = 0 ∨ (index : ℤ) = lastCharIndex
  · rw [if_pos hskip]
  · rw [if_neg hskip, if_neg (by simpa [isValidDictionaryIndex] using Nat.not_lt.mpr h)]

/-- C10: greedy CTC decoding is total and bounds-safe — the decoded string is
the concatenation of exactly `sequenceLength` per-timestep emissions, each of
which is empty, a single space, or a dictionary entry, and any timestep whose
argmax lies outside the dictionary emits nothing. -/
theorem ctcGreedyDecode_safe (logits : List ℚ) (sequenceLength numClasses : ℕ)
    (charDict : List String) :
    ctcGreedyDecode logits sequenceLength numClasses charDict =
      concatAll (ctcEmissionList logits numClasses charDict sequenceLength 0 (-1)) ∧
    (ctcEmissionList logits numClasses charDict sequenceLength 0 (-1)).length =
      sequenceLength ∧
    (∀ e ∈ ctcEmissionList logits numClasses charDict sequenceLength 0 (-1),
      e = "" ∨ e = " " ∨ e ∈ charDict) ∧
    (∀ (lastCharIndex : ℤ) (index : ℕ), charDict.length ≤ index →
      ctcEmission charDict lastCharIndex index = "") := by
  refine ⟨?_, ctcEmissionList_length logits numClasses charDict sequenceLength 0 (-1), ?_, ?_⟩
  · rw [ctcGreedyDecode, ctcGreedyDecodeGo_eq_emissions, String.empty_append]
  · intro e he
    have : ∀ (remaining t : ℕ) (lastCharIndex : ℤ),
        e ∈ ctcEmissionList logits numClasses charDict remaining t lastCharIndex →
        e = "" ∨ e = " " ∨ e ∈ charDict := by
      intro remaining
      induction remaining with
      | zero => intro t lastCharIndex h; simp [ctcEmissionList] at h
      | succ n ih =>
          intro t lastCharIndex h
          rw [ctcEmissionList] at h
          rcases List.mem_cons.mp h with h | h
          · rw [h]
            exact ctcEmission_cases charDict lastCharIndex _
          · exact ih (t + 1) _ h
    exact this sequenceLength 0 (-1) he
  · exact fun lastCharIndex index h => ctcEmission_out_of_bounds charDict lastCharIndex index h

/-- Witness for C10 at a concrete input. -/
theorem ctcGreedyDecode_safe_witness :
    ctcGreedyDecode [0, 1, 0, 0, 1, 0] 2 3 ["#", "x", "y"] =
      concatAll (ctcEmissionList [0, 1, 0, 0, 1, 0] 3 ["#", "x", "y"] 2 0 (-1)) ∧
    (ctcEmissionList [0, 1, 0, 0, 1, 0] 3 ["#", "x", "y"] 2 0 (-1)).length = 2 ∧
    ctcEmission ["#", "x", "y"] (-1) 7 = "" :=
  ⟨(ctcGreedyDecode_safe [0, 1, 0, 0, 1, 0] 2 3 ["#", "x", "y"]).1,
   (ctcGreedyDecode_safe [0, 1, 0, 0, 1, 0] 2 3 ["#", "x", "y"]).2.1,
   (ctcGreedyDecode_safe [0, 1, 0, 0, 1, 0] 2 3 ["#", "x", "y"]).2.2.2 (-1) 7 (by decide)⟩

/-- When every argmax in the window is the index `i` and the incoming
`lastCharIndex` is already `i`, every timestep is a repeat and emits nothing. -/
theorem ctcEmissionList_const_repeat (logits : List ℚ) (numClasses : ℕ)
    (charDict : List String) (i : ℕ) :
    ∀ (remaining t : ℕ),
      (∀ s, t ≤ s → s < t + remaining → (findMaxProbabilityClass logits s numClasses).2 = i) →
      ctcEmissionList logits numClasses charDict remaining t (i : ℤ) =
        List.replicate remaining ""
  | 0, t, _ => rfl
  | remaining + 1, t, h => by
      have hT : (findMaxProbabilityClass logits t numClasses).2 = i :=
        h t le_rfl (by omega)
      rw [ctcEmissionList, hT, List.replicate_succ]
      rw [ctcEmission, if_pos (Or.inr rfl)]
      rw [ctcEmissionList_const_repeat logits numClasses charDict i remaining (t + 1)
        (fun s hs1 hs2 => h s (by omega) (by omega))]

/-- When every argmax in the window is the blank index 0, every timestep emits
nothing, whatever the incoming `lastCharIndex`. -/
theorem ctcEmissionList_blank (logits : List ℚ) (numClasses : ℕ) (charDict : List String) :
    ∀ (remaining t : ℕ) (lastCharIndex : ℤ),
      (∀ s, t ≤ s → s < t + remaining → (findMaxProbabilityClass logits s numClasses).2 = 0) →
      ctcEmissionList logits numClasses charDict remaining t lastCharIndex =
        List.replicate remaining ""
  | 0, t, _, _ => rfl
  | remaining + 1, t, lastCharIndex, h => by
      have hT : (findMaxProbabilityClass logits t numClasses).2 = 0 :=
        h t le_rfl (by omega)
      rw [ctcEmissionList, hT, List.replicate_succ]
      rw [ctcEmission, if_pos (Or.inl rfl)]
      rw [ctcEmissionList_blank logits numClasses charDict remaining (t + 1) (((0 : ℕ) : ℤ))
        (fun s hs1 hs2 => h s (by omega) (by omega))]

/-- Concatenating empty strings gives the empty string. -/
theorem concatAll_replicate_empty : ∀ n : ℕ, concatAll (List.replicate n "") = ""
  | 0 => rfl
  | n + 1 => by
      rw [List.replicate_succ, concatAll, concatAll_replicate_empty n, String.empty_append]

/-- C5 amended: a run of N ≥ 1 timesteps whose argmax is the same valid
non-blank dictionary index `i` decodes to exactly the single emission of `i`
(the dictionary entry verbatim; a single space when `i` is the dictionary's
last slot, or nothing when that slot holds the literal unknown-token marker) —
one emission, not N; and a sequence whose argmax is the blank index 0 at every
timestep decodes to the empty string. -/
theorem ctcGreedyDecode_collapse :
    (∀ (logits : List ℚ) (sequenceLength numClasses i : ℕ) (charDict : List String),
      1 ≤ sequenceLength →
      (∀ t, t < sequenceLength → (findMaxProbabilityClass logits t numClasses).2 = i) →
      i ≠ 0 → i < charDict.length →
      ctcGreedyDecode logits sequenceLength numClasses charDict =
        appendCharacterToText i charDict) ∧
    (∀ (logits : List ℚ) (sequenceLength numClasses : ℕ) (charDict : List String),
      (∀ t, t < sequenceLength → (findMaxProbabilityClass logits t numClasses).2 = 0) →
      ctcGreedyDecode logits sequenceLength numClasses charDict = "") := by
  constructor
  · intro logits sequenceLength numClasses i charDict hlen hmax hi hvalid
    obtain ⟨m, rfl⟩ : ∃ m, sequenceLength = m + 1 :=
      ⟨sequenceLength - 1, by omega⟩
    have hcond : ¬((findMaxProbabilityClass logits 0 numClasses).2 = 0 ∨
        ((findMaxProbabilityClass logits 0 numClasses).2 : ℤ) = -1) := by
      rw [hmax 0 (by omega)]
      push_neg
      exact ⟨hi, by omega⟩
    have hvalidB : isValidDictionaryIndex (findMaxProbabilityClass logits 0 numClasses).2
        charDict = true := by
      rw [hmax 0 (by omega)]
      simpa [isValidDictionaryIndex] using hvalid
    rw [ctcGreedyDecode, ctcGreedyDecodeGo]
    simp only [hcond, hvalidB, if_false, if_true]
    rw [hmax 0 (by omega),
      ctcGreedyDecodeGo_eq_emissions,
      ctcEmissionList_const_repeat logits numClasses charDict i m 1
        (fun s hs1 hs2 => hmax s (by omega)),
      concatAll_replicate_empty, String.append_empty, String.empty_append]
  · intro logits sequenceLength numClasses charDict hmax
    rw [ctcGreedyDecode, ctcGreedyDecodeGo_eq_emissions, String.empty_append,
      ctcEmissionList_blank logits numClasses charDict sequenceLength 0 (-1)
        (fun s hs1 hs2 => hmax s (by omega)),
      concatAll_replicate_empty]

/-- C5 counterexample: with a dictionary whose last slot is the literal
`"<unk>"` marker, a run of N = 2 timesteps whose argmax is the valid non-blank
index 1 emits NOTHING — zero characters, not exactly one.  (The argmax facts
and index validity are stated alongside to exhibit that the claim's premises
hold at this input.) -/
theorem ctcGreedyDecode_unk_run_emits_nothing :
    (findMaxProbabilityClass [0, 1, 0, 1] 0 2).2 = 1 ∧
    (findMaxProbabilityClass [0, 1, 0, 1] 1 2).2 = 1 ∧
    (1 : ℕ) ≠ 0 ∧ 1 < (["#", "<unk>"] : List String).length ∧
    ctcGreedyDecode [0, 1, 0, 1] 2 2 ["#", "<unk>"] = "" ∧
    (ctcGreedyDecode [0, 1, 0, 1] 2 2 ["#", "<unk>"]).length ≠ 1 := by
  decide

/-- Witness for C5 amended at concrete inputs: a 2-timestep run of index 1
decodes to that index's single emission, and an all-blank sequence decodes to
the empty string. -/
theorem ctcGreedyDecode_collapse_witness :
    ctcGreedyDecode [0, 1, 0, 0, 1, 0] 2 3 ["#", "x", "y"] =
      appendCharacterToText 1 ["#", "x", "y"] ∧
    ctcGreedyDecode [1, 0, 0, 1, 0, 0] 2 3 ["#", "x", "y"] = "" :=
  ⟨ctcGreedyDecode_collapse.1 [0, 1, 0, 0, 1, 0] 2 3 1 ["#", "x", "y"]
      (by norm_num) (by decide) (by decide) (by decide),
   ctcGreedyDecode_collapse.2 [1, 0, 0, 1, 0, 0] 2 3 ["#", "x", "y"] (by decide)⟩

/-! ## C9, C6, C8 — line grouping -/

/-- The lines produced by the grouping loop concatenate to the closed lines,
the current line and the remaining input, in order. -/
theorem groupLoop_join :
    ∀ (rest : List RecognitionResult) (previous : RecognitionResult)
      (currentLine : List RecognitionResult) (lines : List (List RecognitionResult))
      (fullText : String) (avgHeight : ℚ),
      (groupLoop previous currentLine lines fullText avgHeight rest).1.flatten =
        lines.flatten ++ currentLine ++ rest
  | [], previous, currentLine, lines, fullText, avgHeight => by
      rw [groupLoop]
      by_cases hcl : currentLine = []
      · simp [hcl]
      · simp [hcl]
  | current :: rest, previous, currentLine, lines, fullText, avgHeight => by
      rw [groupLoop]
      by_cases hgap : |current.box.y - previous.box.y| ≤ avgHeight * (1/2)
      · rw [if_pos hgap, groupLoop_join]
        simp
      · rw [if_neg hgap, groupLoop_join]
        simp

/-- Every line produced by the grouping loop is non-empty, provided the current
line and all closed lines are. -/
theorem groupLoop_lines_ne_nil :
    ∀ (rest : List RecognitionResult) (previous : RecognitionResult)
      (currentLine : List RecognitionResult) (lines : List (List RecognitionResult))
      (fullText : String) (avgHeight : ℚ),
      currentLine ≠ [] → (∀ l ∈ lines, l ≠ []) →
      ∀ l ∈ (groupLoop previous currentLine lines fullText avgHeight rest).1, l ≠ []
  | [], previous, currentLine, lines, fullText, avgHeight => by
      intro hcl hlines l hl
      rw [groupLoop, if_neg hcl] at hl
      rcases List.mem_append.mp hl with h | h
      · exact hlines l h
      · rw [List.mem_singleton.mp h]
        exact hcl
  | current :: rest, previous, currentLine, lines, fullText, avgHeight => by
      intro hcl hlines
      rw [groupLoop]
      by_cases hgap : |current.box.y - previous.box.y| ≤ avgHeight * (1/2)
      · rw [if_pos hgap]
        exact groupLoop_lines_ne_nil rest current _ lines _ _ (by simp) hlines
      · rw [if_neg hgap]
        refine groupLoop_lines_ne_nil rest current _ _ _ _ (by simp) ?_
        intro l hl
        rcases List.mem_append.mp hl with h | h
        · exact hlines l h
        · rw [List.mem_singleton.mp h]
          exact hcl

/-- `joinSep` over a list extended on the right. -/
theorem joinSep_append_last (sep : String) :
    ∀ (xs : List String) (a : String), xs ≠ [] →
      joinSep sep (xs ++ [a]) = joinSep sep xs ++ sep ++ a
  | [], _, h => absurd rfl h
  | [x], a, _ => rfl
  | x :: y :: xs, a, _ => by
      have ih := joinSep_append_last sep (y :: xs) a (by simp)
      show x ++ sep ++ joinSep sep ((y :: xs) ++ [a]) = x ++ sep ++ joinSep sep (y :: xs) ++ sep ++ a
      rw [ih]
      simp [String.append_assoc]

/-- Rendering a line extended by one item appends a space and the item's
text. -/
theorem renderLine_append_last (line : List RecognitionResult) (r : RecognitionResult)
    (h : line ≠ []) :
    renderLine (line ++ [r]) = renderLine line ++ " " ++ r.text := by
  unfold renderLine
  rw [List.map_append]
  exact joinSep_append_last " " (line.map fun r => r.text) r.text
    (by simpa [List.map_eq_nil_iff] using h)

/-- Rendering the grouped lines extended by one more line appends a newline and
that line's rendering. -/
theorem renderLines_append_last (lines : List (List RecognitionResult))
    (line : List RecognitionResult) (h : lines ≠ []) :
    renderLines (lines ++ [line]) = renderLines lines ++ "\n" ++ renderLine line := by
  unfold renderLines
  rw [List.map_append]
  exact joinSep_append_last "\n" (lines.map renderLine) (renderLine line)
    (by simpa [List.map_eq_nil_iff] using h)

/-- The grouping loop keeps the incrementally built text equal to the rendering
of the produced lines: items within a line joined by a single space, lines
joined by a newline. -/
theorem groupLoop_text :
    ∀ (rest : List RecognitionResult) (previous : RecognitionResult)
      (currentLine : List RecognitionResult) (lines : List (List RecognitionResult))
      (fullText : String) (avgHeight : ℚ),
      currentLine ≠ [] →
      fullText = renderLines (lines ++ [currentLine]) →
      (groupLoop previous currentLine lines fullText avgHeight rest).2 =
        renderLines (groupLoop previous currentLine lines fullText avgHeight rest).1
  | [], previous, currentLine, lines, fullText, avgHeight => by
      intro hcl htext
      rw [groupLoop, if_neg hcl]
      exact htext
  | current :: rest, previous, currentLine, lines, fullText, avgHeight => by
      intro hcl htext
      rw [groupLoop]
      by_cases hgap : |current.box.y - previous.box.y| ≤ avgHeight * (1/2)
      · rw [if_pos hgap]
        refine groupLoop_text rest current _ lines _ _ (by simp) ?_
        by_cases hlines : lines = []
        · subst hlines
          simp only [List.nil_append] at htext ⊢
          rw [htext]
          show renderLines [currentLine] ++ " " ++ current.text =
            renderLines [currentLine ++ [current]]
          unfold renderLines
          simp only [List.map_cons, List.map_nil]
          show renderLine currentLine ++ " " ++ current.text =
            renderLine (currentLine ++ [current])
          rw [renderLine_append_last currentLine current hcl]
        · rw [htext, renderLines_append_last lines currentLine hlines,
            renderLines_append_last lines (currentLine ++ [current]) hlines,
            renderLine_append_last currentLine current hcl]
          simp [String.append_assoc]
      · rw [if_neg hgap]
        refine groupLoop_text rest current _ _ _ _ (by simp) ?_
        rw [htext, renderLines_append_last (lines ++ [currentLine]) [current] (by simp)]
        show renderLines (lines ++ [currentLine]) ++ "\n" ++ current.text =
          renderLines (lines ++ [currentLine]) ++ "\n" ++ renderLine [current]
        rfl

/-- For every input, concatenating the grouped lines reproduces the input
list. -/
theorem processRecognition_lines_join (recognition : List RecognitionResult) :
    (processRecognition recognition).lines.flatten = recognition := by
  match recognition with
  | [] => rfl
  | first :: rest =>
      show (groupLoop first [first] [] first.text first.box.height rest).1.flatten = first :: rest
      rw [groupLoop_join]
      simp

/-- C9: line grouping is a partition — for every non-empty recognition list the
grouped lines concatenate, in order, to exactly the input list (no drops, no
duplicates, original order), and every produced line is non-empty. -/
theorem processRecognition_partition (recognition : List RecognitionResult)
    (h : recognition ≠ []) :
    (processRecognition recognition).lines.flatten = recognition ∧
    ∀ line ∈ (processRecognition recognition).lines, line ≠ [] := by
  refine ⟨processRecognition_lines_join recognition, ?_⟩
  match recognition with
  | first :: rest =>
      show ∀ line ∈ (groupLoop first [first] [] first.text first.box.height rest).1, line ≠ []
      exact groupLoop_lines_ne_nil rest first [first] [] first.text first.box.height
        (by simp) (by simp)

/-- Witness for C9 at a concrete input. -/
theorem processRecognition_partition_witness :
    ([⟨"a", ⟨0, 0, 10, 10⟩⟩] : List RecognitionResult) ≠ [] ∧
    (processRecognition [⟨"a", ⟨0, 0, 10, 10⟩⟩]).lines.flatten = [⟨"a", ⟨0, 0, 10, 10⟩⟩] :=
  ⟨by simp, (processRecognition_partition [⟨"a", ⟨0, 0, 10, 10⟩⟩] (by simp)).1⟩

/-- C6: the flattened and grouped views of the same recognition list agree —
the flattened results array has exactly as many items as all grouped lines
together, and the two text fields are the same string. -/
theorem recognize_views_agree (recognition : List RecognitionResult) :
    (recognizeFlattened recognition).results.length =
      (recognizeGrouped recognition).lines.flatten.length ∧
    (recognizeFlattened recognition).text = (recognizeGrouped recognition).text := by
  constructor
  · show recognition.length = (processRecognition recognition).lines.flatten.length
    rw [processRecognition_lines_join]
  · rfl

/-- C8: the text field of the grouped result renders the lines structure —
item texts joined by a single space within each line, lines joined by a
newline. -/
theorem processRecognition_text_renders (recognition : List RecognitionResult) :
    (processRecognition recognition).text = renderLines (processRecognition recognition).lines := by
  match recognition with
  | [] => rfl
  | first :: rest =>
      show (groupLoop first [first] [] first.text first.box.height rest).2 =
        renderLines (groupLoop first [first] [] first.text first.box.height rest).1
      exact groupLoop_text rest first [first] [] first.text first.box.height (by simp)
        (by simp [renderLines, renderLine, joinSep])

end PpuPaddleOcr
